import Mathlib

/-!
# Shallow embedding of the NVM virtual machine (src/src/vm.rs)

The machine state mirrors the Rust `struct VM`: four `u8` registers, a
`usize` stack pointer, a condition flag, a last-fetched-instruction
register, the instruction stream and a 256-byte memory.

Machine bytes (`u8`) are modelled as `Nat`; every arithmetic step of the
source either cannot leave `[0, 255]` (guarded by the same comparison the
source performs) or is stated under explicit `≤ 255` hypotheses, so no
`% 256` is needed.  `usize` is modelled as `Nat`.

The Rust instruction stream is a `Vec<Either<u8, Instr>>` consumed with
`Vec::pop`, i.e. from the back.  Here `program` is stored in fetch order
(the reverse of the Rust vector): `Vec::pop` on the Rust side is taking
the head of `program` on this side, and the Rust index 0 is the last
element of `program`.

A Rust call of `.unwrap()` on `None` panics; every function of the
source that can panic is embedded with result type `Option _`, `none`
meaning the panic.
-/

namespace NVM

/-- Instruction opcodes, translated from `enum Instr` in src/src/vm.rs. -/
inductive Instr where
  | PUSHi | PUSHA | PUSHB | PUSHX | PUSHY
  | POPA | POPB | POPX | POPY
  | ADDA | ADDB | ADDX | ADDY
  | SUBA | SUBB | SUBX | SUBY
  | BRZ | BRN | BRO
  | SETA | SETB | SETX | SETY
  | HALT
deriving DecidableEq, Repr

/-- Condition-code values, translated from `enum Flag` in src/src/vm.rs. -/
inductive Flag where
  | OVERFLOW | ZERO | NEGATIVE | CARRY | DEFAULT
deriving DecidableEq, Repr

/-- One stream element: `Sum.inl x` is a raw operand byte (`Left(x)` in
the source), `Sum.inr i` an opcode tag (`Right(i)`). -/
abbrev Elem := Sum Nat Instr

/-- Machine state, translated from `struct VM` in src/src/vm.rs.
`program` is kept in fetch order: its head is the element the Rust code
obtains from `self.program.pop()`. -/
structure VM where
  A : Nat
  B : Nat
  X : Nat
  Y : Nat
  SP : Nat
  CC : Flag
  PC : Option Instr
  program : List Elem
  mem : Nat → Nat

/-- Pointwise memory update, modelling the Rust array store `mem[i] = v`. -/
def updMem (m : Nat → Nat) (i v : Nat) : Nat → Nat :=
  fun j => if j = i then v else m j

/-- Translated from `VM::new`: all registers 0, `SP = 255`,
`CC = DEFAULT`, `PC = None`, memory all zero. -/
def VM.new (program : List Elem) : VM :=
  { A := 0, B := 0, X := 0, Y := 0, SP := 255, CC := Flag.DEFAULT,
    PC := none, program := program, mem := fun _ => 0 }

/-- Operand computation of `VM::handle_push` (the `let arg = match self.PC`
block): the register named by `PC` for `PUSHA/B/X/Y`; for `PUSHi` the next
stream element (`0` when that element is an opcode tag), where the source
calls `.unwrap()`, so an empty stream is a panic (`none`). -/
def pushArg (vm : VM) : Option (Nat × VM) :=
  match vm.PC with
  | some Instr.PUSHA => some (vm.A, vm)
  | some Instr.PUSHB => some (vm.B, vm)
  | some Instr.PUSHX => some (vm.X, vm)
  | some Instr.PUSHY => some (vm.Y, vm)
  | some Instr.PUSHi =>
    match vm.program with
    | [] => none
    | Sum.inl x :: rest => some (x, { vm with program := rest })
    | Sum.inr _ :: rest => some (0, { vm with program := rest })
  | _ => some (0, vm)

/-- Translated from `VM::handle_push`: compute the operand, then store it
at `mem[SP]` and decrement `SP`, but only when `SP > 0`. -/
def handle_push (vm : VM) : Option VM :=
  match pushArg vm with
  | none => none
  | some (arg, vm1) =>
    if vm1.SP > 0 then
      some { vm1 with mem := updMem vm1.mem vm1.SP arg, SP := vm1.SP - 1 }
    else
      some vm1

/-- Translated from the private `VM::pop`: on an empty stack
(`SP == 255`) yield 0 and leave the state alone, otherwise increment
`SP` and read `mem[SP + 1]`.  Returns the value together with the
updated state. -/
def VM.pop (vm : VM) : Nat × VM :=
  if vm.SP = 255 then
    (0, vm)
  else
    (vm.mem (vm.SP + 1), { vm with SP := vm.SP + 1 })

/-- Translated from `VM::handle_pop`: pop and store into the register
named by `PC`. -/
def handle_pop (vm : VM) : VM :=
  match vm.PC with
  | some Instr.POPA => { (vm.pop).2 with A := (vm.pop).1 }
  | some Instr.POPB => { (vm.pop).2 with B := (vm.pop).1 }
  | some Instr.POPX => { (vm.pop).2 with X := (vm.pop).1 }
  | some Instr.POPY => { (vm.pop).2 with Y := (vm.pop).1 }
  | _ => vm

/-- Translated from `VM::handle_add`.  The operand is the next stream
element (`0` when it is an opcode tag); `.unwrap()` makes the empty
stream a panic (`none`).  The overflow guard of the source is
`255 - reg_value < arg` on `u8`. -/
def handle_add (vm : VM) : Option VM :=
  match vm.program with
  | [] => none
  | e :: rest =>
    let arg : Nat := match e with | Sum.inl x => x | Sum.inr _ => 0
    let vm1 : VM := { vm with program := rest }
    let reg_value : Nat :=
      match vm1.PC with
      | some Instr.ADDA => vm1.A
      | some Instr.ADDB => vm1.B
      | some Instr.ADDX => vm1.X
      | some Instr.ADDY => vm1.Y
      | _ => 0
    let step1 : Flag × Nat :=
      if 255 - reg_value < arg then (Flag.OVERFLOW, reg_value)
      else if reg_value + arg = 0 then (Flag.ZERO, 0)
      else (Flag.DEFAULT, arg + reg_value)
    let vm2 : VM := { vm1 with CC := step1.1 }
    some (match vm2.PC with
      | some Instr.ADDA => { vm2 with A := step1.2 }
      | some Instr.ADDB => { vm2 with B := step1.2 }
      | some Instr.ADDX => { vm2 with X := step1.2 }
      | some Instr.ADDY => { vm2 with Y := step1.2 }
      | _ => vm2)

/-- Translated from `VM::handle_sub`.  Guard of the source:
`reg_value < arg` rejects the subtraction with `CC = OVERFLOW`. -/
def handle_sub (vm : VM) : Option VM :=
  match vm.program with
  | [] => none
  | e :: rest =>
    let arg : Nat := match e with | Sum.inl x => x | Sum.inr _ => 0
    let vm1 : VM := { vm with program := rest }
    let reg_value : Nat :=
      match vm1.PC with
      | some Instr.SUBA => vm1.A
      | some Instr.SUBB => vm1.B
      | some Instr.SUBX => vm1.X
      | some Instr.SUBY => vm1.Y
      | _ => 0
    let step1 : Flag × Nat :=
      if reg_value < arg then (Flag.OVERFLOW, reg_value)
      else if reg_value - arg = 0 then (Flag.ZERO, 0)
      else (Flag.DEFAULT, reg_value - arg)
    let vm2 : VM := { vm1 with CC := step1.1 }
    some (match vm2.PC with
      | some Instr.SUBA => { vm2 with A := step1.2 }
      | some Instr.SUBB => { vm2 with B := step1.2 }
      | some Instr.SUBX => { vm2 with X := step1.2 }
      | some Instr.SUBY => { vm2 with Y := step1.2 }
      | _ => vm2)

/-- Outcome of one iteration of the `loop` in `VM::execute`: the body
panicked (`crash`), hit a `break` or the empty stream (`halted`), or
fell through to the next iteration (`running`). -/
inductive StepResult where
  | crash : StepResult
  | halted : VM → StepResult
  | running : VM → StepResult

/-- One iteration of the `loop` in `VM::execute`: pop the next stream
element; an empty stream clears `PC` and breaks; a raw operand is
discarded; an opcode is recorded in `PC` and dispatched, where `HALT`
and every unhandled opcode (`BRZ/BRN/BRO/SETA/B/X/Y`, the `_` arm)
break. -/
def step (vm : VM) : StepResult :=
  match vm.program with
  | [] => StepResult.halted { vm with PC := none }
  | Sum.inl _ :: rest => StepResult.running { vm with program := rest }
  | Sum.inr instr :: rest =>
    let vm1 : VM := { vm with PC := some instr, program := rest }
    match instr with
    | Instr.ADDA | Instr.ADDB | Instr.ADDX | Instr.ADDY =>
      match handle_add vm1 with
      | none => StepResult.crash
      | some vm2 => StepResult.running vm2
    | Instr.SUBA | Instr.SUBB | Instr.SUBX | Instr.SUBY =>
      match handle_sub vm1 with
      | none => StepResult.crash
      | some vm2 => StepResult.running vm2
    | Instr.PUSHi | Instr.PUSHA | Instr.PUSHB | Instr.PUSHX | Instr.PUSHY =>
      match handle_push vm1 with
      | none => StepResult.crash
      | some vm2 => StepResult.running vm2
    | Instr.POPA | Instr.POPB | Instr.POPX | Instr.POPY =>
      StepResult.running (handle_pop vm1)
    | Instr.HALT => StepResult.halted vm1
    | _ => StepResult.halted vm1

theorem handle_add_length {vm vm' : VM} (h : handle_add vm = some vm') :
    vm'.program.length + 1 = vm.program.length := by
  unfold handle_add at h
  cases hp : vm.program with
  | nil => rw [hp] at h; exact absurd h (by simp)
  | cons e rest =>
    rw [hp] at h
    simp only [Option.some.injEq] at h
    subst h
    cases hpc : vm.PC <;> simp [hpc, hp] <;> rename_i i <;> cases i <;> simp

theorem handle_sub_length {vm vm' : VM} (h : handle_sub vm = some vm') :
    vm'.program.length + 1 = vm.program.length := by
  unfold handle_sub at h
  cases hp : vm.program with
  | nil => rw [hp] at h; exact absurd h (by simp)
  | cons e rest =>
    rw [hp] at h
    simp only [Option.some.injEq] at h
    subst h
    cases hpc : vm.PC <;> simp [hpc, hp] <;> rename_i i <;> cases i <;> simp

theorem pushArg_length {vm : VM} {p : Nat × VM} (h : pushArg vm = some p) :
    p.2.program.length ≤ vm.program.length := by
  unfold pushArg at h
  split at h <;> (try (injection h with h; subst h; simp)) <;>
    (split at h <;> (try (injection h with h; subst h)) <;> simp_all)

theorem handle_push_length {vm vm' : VM} (h : handle_push vm = some vm') :
    vm'.program.length ≤ vm.program.length := by
  unfold handle_push at h
  cases hfa : pushArg vm with
  | none => rw [hfa] at h; exact absurd h (by simp)
  | some p =>
    rw [hfa] at h
    have hp := pushArg_length hfa
    obtain ⟨arg, vm1⟩ := p
    dsimp only at h
    split at h <;> (injection h with h; subst h; simpa using hp)

theorem handle_pop_program (vm : VM) : (handle_pop vm).program = vm.program := by
  unfold handle_pop VM.pop
  cases hpc : vm.PC with
  | none => rfl
  | some i => cases i <;> dsimp only <;> (try split) <;> rfl

theorem step_running_length {vm vm' : VM} (h : step vm = StepResult.running vm') :
    vm'.program.length < vm.program.length := by
  unfold step at h
  cases hp : vm.program with
  | nil => rw [hp] at h; exact absurd h (by simp)
  | cons e rest =>
    rw [List.length_cons]
    rw [hp] at h
    cases e with
    | inl x =>
      simp only [StepResult.running.injEq] at h
      subst h
      simp
    | inr i =>
      cases i <;> dsimp only at h <;>
        first
        | (split at h <;>
            [exact StepResult.noConfusion h;
             (rename_i vm2 hh
              simp only [StepResult.running.injEq] at h
              subst h
              first
              | (have hq := handle_add_length hh; dsimp only at hq; omega)
              | (have hq := handle_sub_length hh; dsimp only at hq; omega)
              | (have hq := handle_push_length hh; dsimp only at hq; omega))])
        | (simp only [StepResult.running.injEq] at h; subst h;
            rw [handle_pop_program]; dsimp only; omega)
        | exact StepResult.noConfusion h

/-- Translated from `VM::execute`: iterate `step` until the loop breaks
(`some` final state) or the body panics (`none`). -/
def execute (vm : VM) : Option VM :=
  match h : step vm with
  | StepResult.crash => none
  | StepResult.halted v => some v
  | StepResult.running v => execute v
termination_by vm.program.length
decreasing_by exact step_running_length h

theorem execute_crash {vm : VM} (hs : step vm = StepResult.crash) :
    execute vm = none := by
  rw [execute]
  split <;> simp_all

theorem execute_halted {vm v : VM} (hs : step vm = StepResult.halted v) :
    execute vm = some v := by
  rw [execute]
  split <;> simp_all

theorem execute_running {vm v : VM} (hs : step vm = StepResult.running v) :
    execute vm = execute v := by
  rw [execute]
  split <;> simp_all

/-- Fuel-counted variant of `execute`, used to state that the loop of
the source reaches a terminal case within `program.length + 1`
iterations: the outer `none` means the fuel ran out first. -/
def executeFuel : Nat → VM → Option (Option VM)
  | 0, _ => none
  | n + 1, vm =>
    match step vm with
    | StepResult.crash => some none
    | StepResult.halted v => some (some v)
    | StepResult.running v => executeFuel n v

/-- States reachable from `vm` by iterations of the execute loop. -/
inductive Reachable : VM → VM → Prop where
  | refl (vm : VM) : Reachable vm vm
  | tail {a b c : VM} : step a = StepResult.running b → Reachable b c → Reachable a c

/-- Register names, for quantifying over the `A/B/X/Y` variants of an
opcode family. -/
inductive Reg where
  | A | B | X | Y
deriving DecidableEq, Repr

/-- Value of the named register. -/
def VM.getReg (vm : VM) : Reg → Nat
  | Reg.A => vm.A
  | Reg.B => vm.B
  | Reg.X => vm.X
  | Reg.Y => vm.Y

/-- The add opcode for a register, after the `ADDA→A` keying of the source. -/
def addInstr : Reg → Instr
  | Reg.A => Instr.ADDA
  | Reg.B => Instr.ADDB
  | Reg.X => Instr.ADDX
  | Reg.Y => Instr.ADDY

/-- The subtract opcode for a register (`SUBA→A`, ...). -/
def subInstr : Reg → Instr
  | Reg.A => Instr.SUBA
  | Reg.B => Instr.SUBB
  | Reg.X => Instr.SUBX
  | Reg.Y => Instr.SUBY

/-- The push opcode for a register (`PUSHA→A`, ...). -/
def pushInstr : Reg → Instr
  | Reg.A => Instr.PUSHA
  | Reg.B => Instr.PUSHB
  | Reg.X => Instr.PUSHX
  | Reg.Y => Instr.PUSHY

/-- The pop opcode for a register (`POPA→A`, ...). -/
def popInstr : Reg → Instr
  | Reg.A => Instr.POPA
  | Reg.B => Instr.POPB
  | Reg.X => Instr.POPX
  | Reg.Y => Instr.POPY

/-- Write the named register, the write-back `self.A = v` keyed by the
last-fetched opcode. -/
def VM.setReg (vm : VM) : Reg → Nat → VM
  | Reg.A, v => { vm with A := v }
  | Reg.B, v => { vm with B := v }
  | Reg.X, v => { vm with X := v }
  | Reg.Y, v => { vm with Y := v }

/-- The register an add/subtract/push/pop opcode reads or writes, `none`
for `PUSHi` and the opcodes outside those families. -/
def targetOf : Instr → Option Reg
  | Instr.ADDA | Instr.SUBA | Instr.PUSHA | Instr.POPA => some Reg.A
  | Instr.ADDB | Instr.SUBB | Instr.PUSHB | Instr.POPB => some Reg.B
  | Instr.ADDX | Instr.SUBX | Instr.PUSHX | Instr.POPX => some Reg.X
  | Instr.ADDY | Instr.SUBY | Instr.PUSHY | Instr.POPY => some Reg.Y
  | _ => none

/-- Opcodes whose handler consumes one more stream element with
`self.program.pop().unwrap()`: the add and subtract families and `PUSHi`. -/
def needsArg : Instr → Bool
  | Instr.ADDA | Instr.ADDB | Instr.ADDX | Instr.ADDY => true
  | Instr.SUBA | Instr.SUBB | Instr.SUBX | Instr.SUBY => true
  | Instr.PUSHi => true
  | _ => false

/-- Machine of the C1 counterexample: register `A` holds the signed-8-bit
maximum 127 and the stream carries `ADDA` with operand 1. -/
def addClaimVM : VM :=
  { VM.new [Sum.inr Instr.ADDA, Sum.inl 1] with A := 127 }

/-- State actually produced by executing that `ADDA`: the sum 128 is
written back and the flag stays `DEFAULT`. -/
def addClaimVMafter : VM :=
  { A := 128, B := 0, X := 0, Y := 0, SP := 255, CC := Flag.DEFAULT,
    PC := some Instr.ADDA, program := [], mem := fun _ => 0 }

end NVM

namespace NVM

theorem pushArg_state {vm : VM} {p : Nat × VM} (h : pushArg vm = some p) :
    p.2.A = vm.A ∧ p.2.B = vm.B ∧ p.2.X = vm.X ∧ p.2.Y = vm.Y ∧
    p.2.SP = vm.SP ∧ p.2.CC = vm.CC ∧ p.2.PC = vm.PC ∧ p.2.mem = vm.mem := by
  unfold pushArg at h
  split at h <;> (try (injection h with h; subst h; exact ⟨rfl, rfl, rfl, rfl, rfl, rfl, rfl, rfl⟩)) <;>
    (split at h <;> (try (injection h with h; subst h)) <;> simp_all)

/-- C4: for every input stream, `new(stream)` (a total function:
construction cannot fail) yields a machine with all four registers 0,
`SP = 255`, `CC = DEFAULT`, `PC = none`, and every memory cell 0. -/
theorem new_construction_invariant (p : List Elem) :
    (VM.new p).A = 0 ∧ (VM.new p).B = 0 ∧ (VM.new p).X = 0 ∧
    (VM.new p).Y = 0 ∧ (VM.new p).SP = 255 ∧
    (VM.new p).CC = Flag.DEFAULT ∧ (VM.new p).PC = none ∧
    ∀ i : Nat, (VM.new p).mem i = 0 :=
  ⟨rfl, rfl, rfl, rfl, rfl, rfl, rfl, fun _ => rfl⟩

/-- C6: popping on an empty stack (`SP = 255`) yields the value 0 and
leaves the whole state (in particular `SP`) unchanged; a push performed
when `SP = 0` leaves memory and `SP` unchanged. -/
theorem stack_boundary_idempotence (vm : VM) :
    (vm.SP = 255 → vm.pop = (0, vm)) ∧
    (vm.SP = 0 → ∀ vm', handle_push vm = some vm' →
      vm'.mem = vm.mem ∧ vm'.SP = vm.SP) := by
  constructor
  · intro h
    unfold VM.pop
    rw [if_pos h]
  · intro h vm' hpush
    unfold handle_push at hpush
    cases hfa : pushArg vm with
    | none => rw [hfa] at hpush; exact Option.noConfusion hpush
    | some p =>
      rw [hfa] at hpush
      obtain ⟨arg, vm1⟩ := p
      obtain ⟨-, -, -, -, hSP, -, -, hM⟩ := pushArg_state hfa
      dsimp only at hpush hSP hM
      rw [hSP, h] at hpush
      simp only [gt_iff_lt, lt_self_iff_false, if_false] at hpush
      injection hpush with hpush
      subst hpush
      exact ⟨hM, hSP⟩

/-- C6 witness: a fresh machine has `SP = 255` and popping it yields 0
with the state unchanged. -/
theorem stack_boundary_idempotence_witness :
    (VM.new []).pop = (0, VM.new []) :=
  (stack_boundary_idempotence (VM.new [])).1 rfl

/-- C1 (amended): for every add instruction `ADDA/ADDB/ADDX/ADDY`
executed with register value `reg` and fetched operand `arg` (both
unsigned 8-bit): if `reg + arg` would exceed the unsigned-8-bit maximum
255 — detected as `(255 - reg) < arg` — then `CC = OVERFLOW` and the
register is unchanged; else if `reg + arg = 0`, `CC = ZERO` and the
register is 0; else `CC = DEFAULT` and the register becomes
`reg + arg`.  In particular register 255 with operand 1 stays 255 with
`CC = OVERFLOW`, while register 127 with operand 1 becomes 128. -/
theorem add_policy_unsigned (vm : VM) (r : Reg) (arg : Nat) (rest : List Elem)
    (hp : vm.program = Sum.inr (addInstr r) :: Sum.inl arg :: rest)
    (hreg : vm.getReg r ≤ 255) (harg : arg ≤ 255) :
    ∃ vm', step vm = StepResult.running vm' ∧ vm'.program = rest ∧
      vm'.SP = vm.SP ∧
      (255 - vm.getReg r < arg →
        vm'.CC = Flag.OVERFLOW ∧ vm'.getReg r = vm.getReg r) ∧
      (¬(255 - vm.getReg r < arg) → vm.getReg r + arg = 0 →
        vm'.CC = Flag.ZERO ∧ vm'.getReg r = 0) ∧
      (¬(255 - vm.getReg r < arg) → vm.getReg r + arg ≠ 0 →
        vm'.CC = Flag.DEFAULT ∧ vm'.getReg r = vm.getReg r + arg) := by
  cases r <;>
    (unfold step
     rw [hp]
     dsimp only [addInstr]
     unfold handle_add
     dsimp only [VM.getReg] at *
     refine ⟨_, rfl, rfl, rfl, fun h1 => ?_, fun h1 h2 => ?_, fun h1 h2 => ?_⟩
     · rw [if_pos h1]; exact ⟨rfl, rfl⟩
     · rw [if_neg h1, if_pos h2]; exact ⟨rfl, rfl⟩
     · rw [if_neg h1, if_neg h2]; exact ⟨rfl, Nat.add_comm _ _⟩)

/-- C1 witness: a machine with `A = 255` adding 1 keeps `A = 255` and
sets `CC = OVERFLOW` through the overflow clause of the theorem. -/
theorem add_policy_unsigned_witness :
    ∃ vm', step { VM.new [Sum.inr Instr.ADDA, Sum.inl 1] with A := 255 } =
        StepResult.running vm' ∧ vm'.program = [] ∧
      vm'.SP = { VM.new [Sum.inr Instr.ADDA, Sum.inl 1] with A := 255 }.SP ∧
      (255 - VM.getReg { VM.new [Sum.inr Instr.ADDA, Sum.inl 1] with A := 255 } Reg.A < 1 →
        vm'.CC = Flag.OVERFLOW ∧ vm'.getReg Reg.A =
          VM.getReg { VM.new [Sum.inr Instr.ADDA, Sum.inl 1] with A := 255 } Reg.A) ∧
      (¬(255 - VM.getReg { VM.new [Sum.inr Instr.ADDA, Sum.inl 1] with A := 255 } Reg.A < 1) →
        VM.getReg { VM.new [Sum.inr Instr.ADDA, Sum.inl 1] with A := 255 } Reg.A + 1 = 0 →
        vm'.CC = Flag.ZERO ∧ vm'.getReg Reg.A = 0) ∧
      (¬(255 - VM.getReg { VM.new [Sum.inr Instr.ADDA, Sum.inl 1] with A := 255 } Reg.A < 1) →
        VM.getReg { VM.new [Sum.inr Instr.ADDA, Sum.inl 1] with A := 255 } Reg.A + 1 ≠ 0 →
        vm'.CC = Flag.DEFAULT ∧ vm'.getReg Reg.A =
          VM.getReg { VM.new [Sum.inr Instr.ADDA, Sum.inl 1] with A := 255 } Reg.A + 1) :=
  add_policy_unsigned { VM.new [Sum.inr Instr.ADDA, Sum.inl 1] with A := 255 }
    Reg.A 1 [] rfl (by decide) (by decide)

/-- C1 counterexample: with `A = 127` and operand 1 the code does not
reject the add at the signed maximum: the register becomes 128 and the
flag stays `DEFAULT`, refuting the claimed `(127 - reg) < arg` guard. -/
theorem add_signed_guard_counterexample :
    step addClaimVM = StepResult.running addClaimVMafter ∧
    addClaimVMafter.A = 128 ∧ addClaimVMafter.CC = Flag.DEFAULT ∧
    ¬(addClaimVMafter.A = 127 ∧ addClaimVMafter.CC = Flag.OVERFLOW) :=
  ⟨rfl, rfl, rfl, by decide⟩

/-- C3: for every subtract instruction `SUBA/SUBB/SUBX/SUBY` executed
with register value `reg` and fetched operand `arg`: if `reg < arg` then
`CC = OVERFLOW` and the register is unchanged; else if `reg - arg = 0`
then `CC = ZERO` and the register is 0; else `CC = DEFAULT` and the
register becomes `reg - arg`. -/
theorem sub_policy (vm : VM) (r : Reg) (arg : Nat) (rest : List Elem)
    (hp : vm.program = Sum.inr (subInstr r) :: Sum.inl arg :: rest)
    (hreg : vm.getReg r ≤ 255) (harg : arg ≤ 255) :
    ∃ vm', step vm = StepResult.running vm' ∧ vm'.program = rest ∧
      vm'.SP = vm.SP ∧
      (vm.getReg r < arg →
        vm'.CC = Flag.OVERFLOW ∧ vm'.getReg r = vm.getReg r) ∧
      (¬(vm.getReg r < arg) → vm.getReg r - arg = 0 →
        vm'.CC = Flag.ZERO ∧ vm'.getReg r = 0) ∧
      (¬(vm.getReg r < arg) → vm.getReg r - arg ≠ 0 →
        vm'.CC = Flag.DEFAULT ∧ vm'.getReg r = vm.getReg r - arg) := by
  cases r <;>
    (unfold step
     rw [hp]
     dsimp only [subInstr]
     unfold handle_sub
     dsimp only [VM.getReg] at *
     refine ⟨_, rfl, rfl, rfl, fun h1 => ?_, fun h1 h2 => ?_, fun h1 h2 => ?_⟩
     · rw [if_pos h1]; exact ⟨rfl, rfl⟩
     · rw [if_neg h1, if_pos h2]; exact ⟨rfl, rfl⟩
     · rw [if_neg h1, if_neg h2]; exact ⟨rfl, rfl⟩)

theorem handle_add_none {vm : VM} (h : handle_add vm = none) : vm.program = [] := by
  unfold handle_add at h
  cases hp : vm.program with
  | nil => rfl
  | cons e rest => rw [hp] at h; exact Option.noConfusion h

theorem handle_sub_none {vm : VM} (h : handle_sub vm = none) : vm.program = [] := by
  unfold handle_sub at h
  cases hp : vm.program with
  | nil => rfl
  | cons e rest => rw [hp] at h; exact Option.noConfusion h

theorem pushArg_none {vm : VM} (h : pushArg vm = none) :
    vm.PC = some Instr.PUSHi ∧ vm.program = [] := by
  unfold pushArg at h
  split at h <;> (try exact Option.noConfusion h)
  rename_i hpc
  split at h
  · rename_i heq; exact ⟨hpc, heq⟩
  · exact Option.noConfusion h
  · exact Option.noConfusion h

theorem handle_push_none {vm : VM} (h : handle_push vm = none) :
    vm.PC = some Instr.PUSHi ∧ vm.program = [] := by
  unfold handle_push at h
  cases hfa : pushArg vm with
  | none => exact pushArg_none hfa
  | some p =>
    rw [hfa] at h
    obtain ⟨arg, vm1⟩ := p
    dsimp only at h
    split at h <;> exact Option.noConfusion h

theorem step_crash_program {vm : VM} (h : step vm = StepResult.crash) :
    ∃ i : Instr, vm.program = [Sum.inr i] ∧ needsArg i = true := by
  unfold step at h
  cases hp : vm.program with
  | nil => rw [hp] at h; exact StepResult.noConfusion h
  | cons e rest =>
    rw [hp] at h
    cases e with
    | inl x => exact StepResult.noConfusion h
    | inr i =>
      cases i <;> dsimp only at h <;>
        first
        | exact StepResult.noConfusion h
        | (split at h
           · rename_i hh
             first
             | (have hrest : rest = [] := by
                  first
                  | simpa using handle_add_none hh
                  | simpa using handle_sub_none hh
                subst hrest
                exact ⟨_, rfl, rfl⟩)
             | (have hpp := handle_push_none hh
                dsimp only at hpp
                first
                | exact Instr.noConfusion (Option.some.inj hpp.1)
                | (obtain ⟨-, hrest⟩ := hpp
                   subst hrest
                   exact ⟨_, rfl, rfl⟩))
           · exact StepResult.noConfusion h)

theorem handle_add_program {vm vm2 : VM} (h : handle_add vm = some vm2) :
    ∃ e, vm.program = e :: vm2.program := by
  unfold handle_add at h
  cases hp : vm.program with
  | nil => rw [hp] at h; exact Option.noConfusion h
  | cons e rest =>
    rw [hp] at h
    injection h with h
    subst h
    refine ⟨e, ?_⟩
    dsimp only
    cases hpc : vm.PC
    · rfl
    · rename_i i; cases i <;> rfl

theorem handle_sub_program {vm vm2 : VM} (h : handle_sub vm = some vm2) :
    ∃ e, vm.program = e :: vm2.program := by
  unfold handle_sub at h
  cases hp : vm.program with
  | nil => rw [hp] at h; exact Option.noConfusion h
  | cons e rest =>
    rw [hp] at h
    injection h with h
    subst h
    refine ⟨e, ?_⟩
    dsimp only
    cases hpc : vm.PC
    · rfl
    · rename_i i; cases i <;> rfl

theorem pushArg_program {vm : VM} {p : Nat × VM} (h : pushArg vm = some p) :
    p.2.program = vm.program ∨ ∃ e, vm.program = e :: p.2.program := by
  unfold pushArg at h
  split at h <;> (try (injection h with h; subst h; exact Or.inl rfl))
  split at h
  · exact Option.noConfusion h
  · injection h with h; subst h
    rename_i heq
    exact Or.inr ⟨_, heq⟩
  · injection h with h; subst h
    rename_i heq
    exact Or.inr ⟨_, heq⟩

theorem handle_push_program {vm vm' : VM} (h : handle_push vm = some vm') :
    vm'.program = vm.program ∨ ∃ e, vm.program = e :: vm'.program := by
  unfold handle_push at h
  cases hfa : pushArg vm with
  | none => rw [hfa] at h; exact Option.noConfusion h
  | some p =>
    rw [hfa] at h
    have hs := pushArg_program hfa
    obtain ⟨arg, vm1⟩ := p
    dsimp only at h hs
    split at h <;> (injection h with h; subst h; simpa using hs)

theorem step_program_shape {vm v : VM} (hs : step vm = StepResult.running v) :
    ∃ e rest, vm.program = e :: rest ∧
      (v.program = rest ∨ ∃ e2 rest2, rest = e2 :: rest2 ∧ v.program = rest2) := by
  unfold step at hs
  cases hp : vm.program with
  | nil => rw [hp] at hs; exact StepResult.noConfusion hs
  | cons e rest =>
    rw [hp] at hs
    refine ⟨e, rest, rfl, ?_⟩
    cases e with
    | inl x =>
      injection hs with hs
      subst hs
      exact Or.inl rfl
    | inr i =>
      cases i <;> dsimp only at hs <;>
        first
        | exact StepResult.noConfusion hs
        | (split at hs
           · exact StepResult.noConfusion hs
           · rename_i vm2 hh
             injection hs with hs
             subst hs
             first
             | (obtain ⟨e2, he2⟩ := handle_add_program hh
                dsimp only at he2
                exact Or.inr ⟨e2, _, he2, rfl⟩)
             | (obtain ⟨e2, he2⟩ := handle_sub_program hh
                dsimp only at he2
                exact Or.inr ⟨e2, _, he2, rfl⟩)
             | (rcases handle_push_program hh with h1 | ⟨e2, he2⟩
                · dsimp only at h1
                  exact Or.inl h1
                · dsimp only at he2
                  exact Or.inr ⟨e2, _, he2, rfl⟩))
        | (injection hs with hs
           subst hs
           exact Or.inl (by rw [handle_pop_program]))

theorem safeLast_step {vm v : VM}
    (hsafe : ∀ i : Instr, vm.program.getLast? = some (Sum.inr i) → needsArg i = false)
    (hs : step vm = StepResult.running v) :
    ∀ i : Instr, v.program.getLast? = some (Sum.inr i) → needsArg i = false := by
  obtain ⟨e, rest, hpe, hcase⟩ := step_program_shape hs
  intro i hi
  apply hsafe
  rw [hpe]
  rcases hcase with h1 | ⟨e2, rest2, h2, h3⟩
  · rw [h1] at hi
    cases rest with
    | nil => simp at hi
    | cons b t => rw [List.getLast?_cons_cons]; exact hi
  · subst h2
    rw [h3] at hi
    rw [List.getLast?_cons_cons]
    cases rest2 with
    | nil => simp at hi
    | cons b t => rw [List.getLast?_cons_cons]; exact hi

/-- C2 (amended): execution never panics provided no add, subtract, or
push-immediate opcode stands at index 0 of the stream vector (the
last-fetched position): decode mismatches, stack overflow, stack
underflow and arithmetic overflow all resolve to defined fallbacks, and
when an operand-consuming opcode finds an opcode tag next, the operand
is treated as 0.  When such an opcode has no next element at all, the
operand fetch calls `.unwrap()` on `None` and execution panics, refuting
the unconditional claim. -/
theorem execute_no_panic (vm : VM)
    (hsafe : ∀ i : Instr, vm.program.getLast? = some (Sum.inr i) → needsArg i = false) :
    execute vm ≠ none := by
  have H : ∀ (n : Nat) (w : VM), w.program.length ≤ n →
      (∀ i : Instr, w.program.getLast? = some (Sum.inr i) → needsArg i = false) →
      execute w ≠ none := by
    intro n
    induction n with
    | zero =>
      intro w hlen hsafe'
      have hp : w.program = [] := List.length_eq_zero.mp (Nat.le_zero.mp hlen)
      have hstep : step w = StepResult.halted { w with PC := none } := by
        unfold step; rw [hp]
      rw [execute_halted hstep]
      exact Option.noConfusion
    | succ n ih =>
      intro w hlen hsafe'
      cases hs : step w with
      | crash =>
        obtain ⟨i, hpi, hneed⟩ := step_crash_program hs
        have hfalse := hsafe' i (by rw [hpi]; simp)
        rw [hneed] at hfalse
        exact Bool.noConfusion hfalse
      | halted v =>
        rw [execute_halted hs]
        exact Option.noConfusion
      | running v =>
        rw [execute_running hs]
        have hlt := step_running_length hs
        exact ih v (by omega) (safeLast_step hsafe' hs)
  exact H vm.program.length vm (Nat.le_refl _) hsafe

/-- C2 witness: the single-instruction stream `HALT` satisfies the
safe-tail condition and executes without panicking. -/
theorem execute_no_panic_witness :
    execute (VM.new [Sum.inr Instr.HALT]) ≠ none :=
  execute_no_panic (VM.new [Sum.inr Instr.HALT])
    (by intro i hi; simp [VM.new] at hi; subst hi; rfl)

/-- C2 counterexample: the stream holding the single opcode `ADDA` makes
the operand fetch `.unwrap()` a `None`: the loop body panics (modelled
as `StepResult.crash` / `execute = none`), refuting the claim that every
input stream executes without panicking. -/
theorem operand_fetch_crash_counterexample :
    step (VM.new [Sum.inr Instr.ADDA]) = StepResult.crash ∧
    execute (VM.new [Sum.inr Instr.ADDA]) = none :=
  ⟨rfl, execute_crash rfl⟩

/-- C3 witness: a machine with `A = 10` subtracting 42 keeps `A = 10`
and sets `CC = OVERFLOW` through the reject clause of the theorem. -/
theorem sub_policy_witness :
    ∃ vm', step { VM.new [Sum.inr Instr.SUBA, Sum.inl 42] with A := 10 } =
        StepResult.running vm' ∧ vm'.program = [] ∧
      vm'.SP = { VM.new [Sum.inr Instr.SUBA, Sum.inl 42] with A := 10 }.SP ∧
      (VM.getReg { VM.new [Sum.inr Instr.SUBA, Sum.inl 42] with A := 10 } Reg.A < 42 →
        vm'.CC = Flag.OVERFLOW ∧ vm'.getReg Reg.A =
          VM.getReg { VM.new [Sum.inr Instr.SUBA, Sum.inl 42] with A := 10 } Reg.A) ∧
      (¬(VM.getReg { VM.new [Sum.inr Instr.SUBA, Sum.inl 42] with A := 10 } Reg.A < 42) →
        VM.getReg { VM.new [Sum.inr Instr.SUBA, Sum.inl 42] with A := 10 } Reg.A - 42 = 0 →
        vm'.CC = Flag.ZERO ∧ vm'.getReg Reg.A = 0) ∧
      (¬(VM.getReg { VM.new [Sum.inr Instr.SUBA, Sum.inl 42] with A := 10 } Reg.A < 42) →
        VM.getReg { VM.new [Sum.inr Instr.SUBA, Sum.inl 42] with A := 10 } Reg.A - 42 ≠ 0 →
        vm'.CC = Flag.DEFAULT ∧ vm'.getReg Reg.A =
          VM.getReg { VM.new [Sum.inr Instr.SUBA, Sum.inl 42] with A := 10 } Reg.A - 42) :=
  sub_policy { VM.new [Sum.inr Instr.SUBA, Sum.inl 42] with A := 10 }
    Reg.A 42 [] rfl (by decide) (by decide)

theorem handle_add_SP {vm vm' : VM} (h : handle_add vm = some vm') :
    vm'.SP = vm.SP := by
  unfold handle_add at h
  cases hp : vm.program with
  | nil => rw [hp] at h; exact Option.noConfusion h
  | cons e rest =>
    rw [hp] at h
    injection h with h
    subst h
    dsimp only
    cases hpc : vm.PC
    · rfl
    · rename_i i; cases i <;> rfl

theorem handle_sub_SP {vm vm' : VM} (h : handle_sub vm = some vm') :
    vm'.SP = vm.SP := by
  unfold handle_sub at h
  cases hp : vm.program with
  | nil => rw [hp] at h; exact Option.noConfusion h
  | cons e rest =>
    rw [hp] at h
    injection h with h
    subst h
    dsimp only
    cases hpc : vm.PC
    · rfl
    · rename_i i; cases i <;> rfl

theorem handle_push_SP {vm vm' : VM} (h : handle_push vm = some vm') :
    (0 < vm.SP → vm'.SP = vm.SP - 1) ∧ (vm.SP = 0 → vm'.SP = 0) := by
  unfold handle_push at h
  cases hfa : pushArg vm with
  | none => rw [hfa] at h; exact Option.noConfusion h
  | some p =>
    rw [hfa] at h
    obtain ⟨arg, vm1⟩ := p
    obtain ⟨-, -, -, -, hSP, -, -, -⟩ := pushArg_state hfa
    dsimp only at h hSP
    split at h <;> (injection h with h; subst h) <;>
      refine ⟨fun h0 => ?_, fun h0 => ?_⟩ <;> (try dsimp only) <;> omega

theorem handle_pop_SP_le {vm : VM} (h : vm.SP ≤ 255) :
    (handle_pop vm).SP ≤ 255 := by
  unfold handle_pop VM.pop
  cases hpc : vm.PC
  · exact h
  · rename_i i
    cases i <;> dsimp only <;>
      first
      | exact h
      | (split
         · exact h
         · rename_i hc; dsimp only; omega)

theorem step_running_SP {vm v : VM} (hs : step vm = StepResult.running v)
    (hle : vm.SP ≤ 255) : v.SP ≤ 255 := by
  unfold step at hs
  cases hp : vm.program with
  | nil => rw [hp] at hs; exact StepResult.noConfusion hs
  | cons e rest =>
    rw [hp] at hs
    cases e with
    | inl x => injection hs with hs; subst hs; exact hle
    | inr i =>
      cases i <;> dsimp only at hs <;>
        first
        | exact StepResult.noConfusion hs
        | (split at hs
           · exact StepResult.noConfusion hs
           · rename_i vm2 hh
             injection hs with hs
             subst hs
             first
             | (have hq := handle_add_SP hh; dsimp only at hq; omega)
             | (have hq := handle_sub_SP hh; dsimp only at hq; omega)
             | (have hq := handle_push_SP hh; dsimp only at hq; omega))
        | (injection hs with hs
           subst hs
           exact handle_pop_SP_le hle)

theorem step_halted_SP {vm v : VM} (hs : step vm = StepResult.halted v) :
    v.SP = vm.SP := by
  unfold step at hs
  cases hp : vm.program with
  | nil => rw [hp] at hs; injection hs with hs; subst hs; rfl
  | cons e rest =>
    rw [hp] at hs
    cases e with
    | inl x => exact StepResult.noConfusion hs
    | inr i =>
      cases i <;> dsimp only at hs <;>
        first
        | (split at hs <;> exact StepResult.noConfusion hs)
        | exact StepResult.noConfusion hs
        | (injection hs with hs; subst hs; rfl)

theorem reachable_SP_le {a c : VM} (h : Reachable a c) (ha : a.SP ≤ 255) :
    c.SP ≤ 255 := by
  induction h with
  | refl vm => exact ha
  | tail h1 h2 ih => exact ih (step_running_SP h1 ha)

/-- C5: the stack pointer stays in `[0, 255]` (it is a `Nat`, so only the
upper bound is informative): a push decrements `SP` by 1 when `SP > 0`
and leaves it at 0 otherwise; a pop increments `SP` by 1 when `SP < 255`
and leaves it at 255 otherwise; every state reachable by loop iterations
from a freshly constructed machine, and every final state `execute`
returns, has `SP ≤ 255`. -/
theorem sp_range_invariant :
    (∀ vm vm' : VM, handle_push vm = some vm' →
      (0 < vm.SP → vm'.SP = vm.SP - 1) ∧ (vm.SP = 0 → vm'.SP = 0)) ∧
    (∀ vm : VM,
      (vm.SP < 255 → (VM.pop vm).2.SP = vm.SP + 1) ∧
      (vm.SP = 255 → (VM.pop vm).2.SP = vm.SP)) ∧
    (∀ (p : List Elem) (vm : VM), Reachable (VM.new p) vm → vm.SP ≤ 255) ∧
    (∀ (p : List Elem) (vm : VM), execute (VM.new p) = some vm → vm.SP ≤ 255) := by
  have H : ∀ (n : Nat) (w : VM), w.program.length ≤ n → w.SP ≤ 255 →
      ∀ v, execute w = some v → v.SP ≤ 255 := by
    intro n
    induction n with
    | zero =>
      intro w hlen hsp v hex
      have hp : w.program = [] := List.length_eq_zero.mp (Nat.le_zero.mp hlen)
      have hstep : step w = StepResult.halted { w with PC := none } := by
        unfold step; rw [hp]
      rw [execute_halted hstep] at hex
      injection hex with hex
      subst hex
      exact hsp
    | succ n ih =>
      intro w hlen hsp v hex
      cases hs : step w with
      | crash => rw [execute_crash hs] at hex; exact Option.noConfusion hex
      | halted hv =>
        rw [execute_halted hs] at hex
        injection hex with hex
        subst hex
        rw [step_halted_SP hs]
        exact hsp
      | running v2 =>
        rw [execute_running hs] at hex
        have hlt := step_running_length hs
        exact ih v2 (by omega) (step_running_SP hs hsp) v hex
  refine ⟨fun vm vm' h => handle_push_SP h, fun vm => ⟨fun hlt => ?_, fun heq => ?_⟩,
    fun p vm h => reachable_SP_le h (Nat.le_refl 255),
    fun p vm h => H (VM.new p).program.length (VM.new p) (Nat.le_refl _) (Nat.le_refl 255) vm h⟩
  · unfold VM.pop
    rw [if_neg (by omega)]
  · unfold VM.pop
    rw [if_pos heq]

/-- C5 witness: a freshly constructed machine is reachable from itself
and its stack pointer 255 is within range. -/
theorem sp_range_invariant_witness : (VM.new []).SP ≤ 255 :=
  sp_range_invariant.2.2.1 [] (VM.new []) (Reachable.refl (VM.new []))

/-- Final state of executing the one-instruction stream `HALT`. -/
def haltVMafter : VM := { VM.new [] with PC := some Instr.HALT }

/-- C9: fetching any of `BRZ/BRN/BRO/SETA/SETB/SETX/SETY` transitions to
`HALTED` exactly as `HALT` does — the state is unchanged except that
`PC` records the opcode and the stream element is consumed — and the
stream holding the single opcode `HALT` terminates after exactly one
fetch with all registers, `SP` and `CC` unchanged from construction. -/
theorem unimplemented_opcode_halts :
    (∀ (vm : VM) (i : Instr) (rest : List Elem),
      vm.program = Sum.inr i :: rest →
      (i = Instr.BRZ ∨ i = Instr.BRN ∨ i = Instr.BRO ∨ i = Instr.SETA ∨
       i = Instr.SETB ∨ i = Instr.SETX ∨ i = Instr.SETY ∨ i = Instr.HALT) →
      step vm = StepResult.halted { vm with PC := some i, program := rest }) ∧
    (step (VM.new [Sum.inr Instr.HALT]) = StepResult.halted haltVMafter ∧
     execute (VM.new [Sum.inr Instr.HALT]) = some haltVMafter ∧
     haltVMafter.A = 0 ∧ haltVMafter.B = 0 ∧ haltVMafter.X = 0 ∧
     haltVMafter.Y = 0 ∧ haltVMafter.SP = 255 ∧ haltVMafter.CC = Flag.DEFAULT) := by
  constructor
  · intro vm i rest hp hc
    rcases hc with rfl | rfl | rfl | rfl | rfl | rfl | rfl | rfl <;>
      (unfold step; rw [hp])
  · exact ⟨rfl, execute_halted rfl, rfl, rfl, rfl, rfl, rfl, rfl⟩

/-- C9 witness: a stream holding only `BRZ` halts at once with the
state unchanged except `PC`. -/
theorem unimplemented_opcode_halts_witness :
    step (VM.new [Sum.inr Instr.BRZ]) =
      StepResult.halted { VM.new [Sum.inr Instr.BRZ] with
        PC := some Instr.BRZ, program := [] } :=
  unimplemented_opcode_halts.1 (VM.new [Sum.inr Instr.BRZ]) Instr.BRZ [] rfl
    (Or.inl rfl)

/-- C10: execution terminates on every finite stream: each loop
iteration consumes at least one stream element (operand-consuming
handlers consume one more), so the fuelled loop reaches a terminal
outcome — normal halt, end of stream, or the panic of C2 — within
`program.length + 1` iterations, and that outcome is `execute`'s. -/
theorem execute_terminates (vm : VM) :
    (∀ vm', step vm = StepResult.running vm' →
      vm'.program.length < vm.program.length) ∧
    executeFuel (vm.program.length + 1) vm = some (execute vm) := by
  have H : ∀ (n : Nat) (w : VM), w.program.length < n →
      executeFuel n w = some (execute w) := by
    intro n
    induction n with
    | zero => intro w h; omega
    | succ n ih =>
      intro w h
      cases hs : step w with
      | crash => rw [execute_crash hs]; simp only [executeFuel]; rw [hs]
      | halted v => rw [execute_halted hs]; simp only [executeFuel]; rw [hs]
      | running v =>
        rw [execute_running hs]
        simp only [executeFuel]
        rw [hs]
        have := step_running_length hs
        exact ih v (by omega)
  exact ⟨fun vm' hs => step_running_length hs,
    H (vm.program.length + 1) vm (Nat.lt_succ_self _)⟩

theorem handle_push_regs {vm vm' : VM} (h : handle_push vm = some vm') :
    vm'.A = vm.A ∧ vm'.B = vm.B ∧ vm'.X = vm.X ∧ vm'.Y = vm.Y := by
  unfold handle_push at h
  cases hfa : pushArg vm with
  | none => rw [hfa] at h; exact Option.noConfusion h
  | some p =>
    rw [hfa] at h
    obtain ⟨arg, vm1⟩ := p
    obtain ⟨hA, hB, hX, hY, -, -, -, -⟩ := pushArg_state hfa
    dsimp only at h hA hB hX hY
    split at h <;> (injection h with h; subst h; exact ⟨hA, hB, hX, hY⟩)

/-- C8: an add, subtract, push, or pop instruction never mutates a
register other than the one its opcode identifies: when a fetched opcode
`i` executes and leaves the machine running, every register `r` other
than `targetOf i` keeps its value. -/
theorem register_isolation (vm vm' : VM) (i : Instr) (rest : List Elem) (r : Reg)
    (hp : vm.program = Sum.inr i :: rest)
    (hs : step vm = StepResult.running vm')
    (hr : targetOf i ≠ some r) :
    vm'.getReg r = vm.getReg r := by
  unfold step at hs
  rw [hp] at hs
  cases i <;> dsimp only at hs <;>
    first
    | exact StepResult.noConfusion hs
    | (split at hs
       · exact StepResult.noConfusion hs
       · rename_i vm2 hh
         injection hs with hs
         subst hs
         first
         | (obtain ⟨hA, hB, hX, hY⟩ := handle_push_regs hh
            dsimp only at hA hB hX hY
            cases r <;> first | exact absurd rfl hr | assumption)
         | ((first | unfold handle_add at hh | unfold handle_sub at hh)
            dsimp only at hh
            cases hre : rest with
            | nil => rw [hre] at hh; exact Option.noConfusion hh
            | cons e rest2 =>
              rw [hre] at hh
              injection hh with hh
              subst hh
              cases r <;> first | exact absurd rfl hr | rfl))
    | (injection hs with hs
       subst hs
       unfold handle_pop VM.pop
       dsimp only
       split <;> (cases r <;> first | exact absurd rfl hr | rfl))

/-- Post state of the C8 witness: popping into `X` on a fresh machine. -/
def popClaimVMafter : VM := { VM.new [] with PC := some Instr.POPX }

/-- C8 witness: executing `POPX` on a fresh machine leaves register `A`
unchanged. -/
theorem register_isolation_witness :
    VM.getReg popClaimVMafter Reg.A =
      VM.getReg (VM.new [Sum.inr Instr.POPX]) Reg.A :=
  register_isolation (VM.new [Sum.inr Instr.POPX]) popClaimVMafter Instr.POPX
    [] Reg.A rfl rfl (by decide)

theorem getReg_setReg (vm : VM) (r : Reg) (v : Nat) :
    (vm.setReg r v).getReg r = v := by
  cases r <;> rfl

theorem setReg_SP (vm : VM) (r : Reg) (v : Nat) :
    (vm.setReg r v).SP = vm.SP := by
  cases r <;> rfl

/-- C7 (amended): provided the stack is not full (`SP > 0`, so the push
succeeds; `SP ≤ 255` as for every reachable state), pushing register
R's value and then immediately popping into R leaves R unchanged and
restores `SP`; immediately after any successful push — register push or
`PUSHi` — `memory[SP + 1]` holds the pushed value and `SP` has moved
down by one.  When `SP = 0` the push is silently dropped while the pop
still reads `memory[1]`, so the round-trip clause fails there. -/
theorem push_pop_roundtrip :
    (∀ (vm : VM) (r : Reg) (rest : List Elem),
      vm.program = Sum.inr (pushInstr r) :: Sum.inr (popInstr r) :: rest →
      0 < vm.SP → vm.SP ≤ 255 →
      ∃ vm1 vm2, step vm = StepResult.running vm1 ∧
        step vm1 = StepResult.running vm2 ∧
        vm1.mem (vm1.SP + 1) = vm.getReg r ∧
        vm1.SP = vm.SP - 1 ∧
        vm2.getReg r = vm.getReg r ∧ vm2.SP = vm.SP) ∧
    (∀ (vm : VM) (x : Nat) (rest : List Elem),
      vm.program = Sum.inr Instr.PUSHi :: Sum.inl x :: rest →
      0 < vm.SP →
      ∃ vm1, step vm = StepResult.running vm1 ∧
        vm1.mem (vm1.SP + 1) = x ∧ vm1.SP = vm.SP - 1) := by
  constructor
  · intro vm r rest hp hsp hle
    refine ⟨{ vm with
              PC := some (pushInstr r),
              program := Sum.inr (popInstr r) :: rest,
              mem := updMem vm.mem vm.SP (vm.getReg r), SP := vm.SP - 1 },
            VM.setReg { vm with
              PC := some (popInstr r), program := rest,
              mem := updMem vm.mem vm.SP (vm.getReg r), SP := vm.SP - 1 + 1 }
              r (updMem vm.mem vm.SP (vm.getReg r) (vm.SP - 1 + 1)),
            ?_, ?_, ?_, ?_, ?_, ?_⟩
    · cases r <;>
        (unfold step
         rw [hp]
         dsimp only [pushInstr, popInstr, VM.getReg]
         unfold handle_push pushArg
         dsimp only
         rw [if_pos (show vm.SP > 0 from hsp)])
    · cases r <;>
        (unfold step
         dsimp only [pushInstr, popInstr, VM.setReg, VM.getReg]
         unfold handle_pop VM.pop
         dsimp only
         rw [if_neg (by omega)])
    · dsimp only
      simp only [updMem]
      rw [if_pos (by omega)]
    · rfl
    · rw [getReg_setReg]
      simp only [updMem]
      rw [if_pos (by omega)]
    · rw [setReg_SP]
      dsimp only
      omega
  · intro vm x rest hp hsp
    refine ⟨{ vm with
              PC := some Instr.PUSHi, program := rest,
              mem := updMem vm.mem vm.SP x, SP := vm.SP - 1 }, ?_, ?_, ?_⟩
    · unfold step
      rw [hp]
      dsimp only
      unfold handle_push pushArg
      dsimp only
      rw [if_pos (show vm.SP > 0 from hsp)]
    · dsimp only
      simp only [updMem]
      rw [if_pos (by omega)]
    · rfl

/-- Machine of the C7 counterexample: stack full (`SP = 0`), cell 1 of
memory holding 5, about to run `PUSHA` then `POPA` with `A = 0`. -/
def fullStackVM : VM :=
  { VM.new [Sum.inr Instr.PUSHA, Sum.inr Instr.POPA] with
    SP := 0, mem := updMem (fun _ => 0) 1 5 }

/-- State after the dropped push. -/
def fullStackVM1 : VM :=
  { fullStackVM with PC := some Instr.PUSHA, program := [Sum.inr Instr.POPA] }

/-- State after the pop: `A` took `memory[1] = 5` and `SP` rose to 1. -/
def fullStackVM2 : VM :=
  { fullStackVM with A := 5, SP := 1, PC := some Instr.POPA, program := [] }

/-- C7 counterexample: with a full stack (`SP = 0`) the push is dropped
but the pop still loads `memory[1]`: after `PUSHA; POPA` the register
changed from 0 to 5 and `SP` from 0 to 1, refuting the unconditional
round-trip claim. -/
theorem push_pop_full_stack_counterexample :
    step fullStackVM = StepResult.running fullStackVM1 ∧
    step fullStackVM1 = StepResult.running fullStackVM2 ∧
    fullStackVM.A = 0 ∧ fullStackVM2.A = 5 ∧
    fullStackVM.SP = 0 ∧ fullStackVM2.SP = 1 ∧
    ¬(fullStackVM2.A = fullStackVM.A ∧ fullStackVM2.SP = fullStackVM.SP) :=
  ⟨rfl, rfl, rfl, rfl, rfl, rfl, by decide⟩

/-- C7 witness: on a fresh machine (`SP = 255 > 0`) pushing the
immediate 10 stores it at `memory[SP + 1]` with `SP` now 254, the
example of the specification. -/
theorem push_pop_roundtrip_witness :
    ∃ vm1, step (VM.new [Sum.inr Instr.PUSHi, Sum.inl 10]) =
        StepResult.running vm1 ∧
      vm1.mem (vm1.SP + 1) = 10 ∧
      vm1.SP = (VM.new [Sum.inr Instr.PUSHi, Sum.inl 10]).SP - 1 :=
  push_pop_roundtrip.2 (VM.new [Sum.inr Instr.PUSHi, Sum.inl 10]) 10 [] rfl
    (by decide)

end NVM
